import Mathlib

/-!
Verification of the `my_stl` reference-counted smart-pointer library
(`SmartPointers.hpp` / `SmartPointers.ipp`).

The model is a shallow embedding of the authoritative, fully defined
header (`SmartPointers.hpp`, included by `Main.cpp`):

* `CtlBlock` embeds `detail::ControlBlockBase`: the strong and weak
  reference counts together with instrumentation counters recording how
  many times the virtual operations `delete_data` and `delete_block`
  have been invoked on the block.  A block with
  `deleteBlockCalls ≠ 0` has been freed; touching it afterwards is a
  use-after-free and the machine refuses the access (`Option.none`).
* Operations that the C++ source guards with `assert` are embedded as
  `Option`-returning functions (`none` = assertion failure / undefined
  behaviour).  Operations with no assertion in the source
  (notably `add_strong_link`, which in the authoritative header is the
  unconditional `++strong_count_;`) are embedded as total functions.
* `State` is a heap of control blocks plus the live `SharedPtr` and
  `WeakPtr` handles; each handle stores `ctl_block_` as an optional
  block index (`none` = null pointer).  `Op` enumerates the public API
  calls, and `step`/`run` execute call sequences.
-/

namespace MySTL

/-- Embeds `detail::ControlBlockBase`: `strong_count_` and `weak_count_`
(both initialised to 0 in the source), plus counters recording the calls
of the two virtual operations `delete_data` and `delete_block`. -/
structure CtlBlock where
  strong : Nat
  weak : Nat
  deleteDataCalls : Nat
  deleteBlockCalls : Nat
deriving Repr, DecidableEq

/-- `get_use_count()`: `return strong_count_;` -/
def CtlBlock.get_use_count (b : CtlBlock) : Nat := b.strong

/-- `is_valid()`: `return get_use_count() > 0;` -/
def CtlBlock.is_valid (b : CtlBlock) : Bool := decide (b.get_use_count > 0)

/-- `add_strong_link()`: `++strong_count_;` — the authoritative header
contains no assertion here, so the embedding is a total function. -/
def CtlBlock.add_strong_link (b : CtlBlock) : CtlBlock :=
  { b with strong := b.strong + 1 }

/-- `add_weak_link()`: `++weak_count_;` (no assertion in the
authoritative header). -/
def CtlBlock.add_weak_link (b : CtlBlock) : CtlBlock :=
  { b with weak := b.weak + 1 }

/-- `remove_strong_link()`: asserts `is_valid()`, decrements
`strong_count_`; on reaching 0 calls `delete_data()` and, if
`weak_count_ == 0` as well, `delete_block()`. -/
def CtlBlock.remove_strong_link (b : CtlBlock) : Option CtlBlock :=
  if b.is_valid then
    let b1 := { b with strong := b.strong - 1 }
    if b1.strong = 0 then
      let b2 := { b1 with deleteDataCalls := b1.deleteDataCalls + 1 }
      if b2.weak = 0 then
        some { b2 with deleteBlockCalls := b2.deleteBlockCalls + 1 }
      else
        some b2
    else
      some b1
  else
    none

/-- `--x` on a `size_t`: wraps around at zero.  (The counters are
otherwise modelled as unbounded naturals; the increments of a 64-bit
`size_t` cannot wrap in any execution that fits in memory.) -/
def sizetDec (n : Nat) : Nat := if n = 0 then 18446744073709551615 else n - 1

/-- `remove_weak_link()`: asserts `is_valid() || weak_count_ > 0`,
decrements `weak_count_` (which wraps when the assertion passed via
`is_valid()` while `weak_count_ == 0`); if both counts are now 0, calls
`delete_block()`. -/
def CtlBlock.remove_weak_link (b : CtlBlock) : Option CtlBlock :=
  if b.is_valid || decide (b.weak > 0) then
    let b1 := { b with weak := sizetDec b.weak }
    if b1.strong = 0 ∧ b1.weak = 0 then
      some { b1 with deleteBlockCalls := b1.deleteBlockCalls + 1 }
    else
      some b1
  else
    none

/-- A freshly constructed `ControlBlockBase`: both counters are
zero-initialised (`size_t strong_count_{0}; size_t weak_count_{0};`). -/
def CtlBlock.fresh : CtlBlock := ⟨0, 0, 0, 0⟩

/-- Program state: the heap of control blocks ever allocated (indexed
by allocation order; a block with `deleteBlockCalls ≠ 0` has been
freed), plus the `ctl_block_` member of every `SharedPtr` handle and
every `WeakPtr` handle (`none` = null pointer). -/
structure State where
  blocks : List CtlBlock
  shared : List (Option Nat)
  weakh : List (Option Nat)
deriving Repr, DecidableEq

/-- Dereference the control-block pointer `i`: refused (undefined
behaviour) when the index was never allocated or the block has already
been freed by `delete_block`. -/
def State.getBlock (s : State) (i : Nat) : Option CtlBlock :=
  match s.blocks[i]? with
  | some b => if b.deleteBlockCalls = 0 then some b else none
  | none => none

/-- The private constructor `SharedPtr(detail::ControlBlockBase*
ctl_block)`: stores the pointer and, when it is non-null, calls
`add_strong_link()`; the new handle is appended to the live handles. -/
def pushShared (p : Option Nat) (s : State) : Option State :=
  match p with
  | none => some { s with shared := s.shared ++ [none] }
  | some i =>
      (s.getBlock i).map fun b =>
        { s with
            blocks := s.blocks.set i b.add_strong_link
            shared := s.shared ++ [some i] }

/-- The private constructor `WeakPtr(detail::ControlBlockBase*
ctl_block)`: stores the pointer and, when it is non-null, calls
`add_weak_link()`. -/
def pushWeak (p : Option Nat) (s : State) : Option State :=
  match p with
  | none => some { s with weakh := s.weakh ++ [none] }
  | some i =>
      (s.getBlock i).map fun b =>
        { s with
            blocks := s.blocks.set i b.add_weak_link
            weakh := s.weakh ++ [some i] }

/-- `SharedPtr::reset()`: if `ctl_block_` is non-null, call
`remove_strong_link()`; then set `ctl_block_ = nullptr`.  `none` when
the handle index does not exist, the block was already freed, or the
assertion inside `remove_strong_link` fails. -/
def resetSharedAt (h : Nat) (s : State) : Option State :=
  match s.shared[h]? with
  | none => none
  | some none => some s
  | some (some i) =>
      (s.getBlock i).bind fun b =>
        b.remove_strong_link.map fun b1 =>
          { s with
              blocks := s.blocks.set i b1
              shared := s.shared.set h none }

/-- `WeakPtr::reset()`: if `ctl_block_` is non-null, call
`remove_weak_link()` and set `ctl_block_ = nullptr`. -/
def resetWeakAt (w : Nat) (s : State) : Option State :=
  match s.weakh[w]? with
  | none => none
  | some none => some s
  | some (some i) =>
      (s.getBlock i).bind fun b =>
        b.remove_weak_link.map fun b1 =>
          { s with
              blocks := s.blocks.set i b1
              weakh := s.weakh.set w none }

/-- The tail of the copy-assignment operators: `ctl_block_ =
other.ctl_block_; ctl_block_->add_strong_link();` executed on handle
`h` with a non-null source pointer `i`. -/
def assignSharedAt (h i : Nat) (s : State) : Option State :=
  (s.getBlock i).map fun b =>
    { s with
        blocks := s.blocks.set i b.add_strong_link
        shared := s.shared.set h (some i) }

/-- The tail of the copy-assignment of `WeakPtr`: `ctl_block_ =
other.ctl_block_; ctl_block_->add_weak_link();`. -/
def assignWeakAt (h i : Nat) (s : State) : Option State :=
  (s.getBlock i).map fun b =>
    { s with
        blocks := s.blocks.set i b.add_weak_link
        weakh := s.weakh.set h (some i) }

/-- The public API calls of `SharedPtr` / `WeakPtr` modelled by the
machine, applied to handles named by list index. -/
inductive Op where
  | sNew
  | sCopyCtor (h : Nat)
  | sCopyAssign (dst src : Nat)
  | sCopyAssignCross (dst src : Nat)
  | sMoveCtor (src : Nat)
  | sMoveAssign (dst src : Nat)
  | sReset (h : Nat)
  | wFromShared (h : Nat)
  | wCopyAssign (dst src : Nat)
  | wReset (w : Nat)
  | lock (w : Nat)

/-- One API call.  Each branch is translated from the corresponding
member of `SharedPtr` / `WeakPtr` in the authoritative header:

* `sNew` — `SharedPtr(T* ptr, ...)`, which delegates to the private
  constructor on `PtrControlBlock::make_block(...)` (a fresh block with
  both counts 0).
* `sCopyCtor h` — `SharedPtr(const SharedPtr& other) :
  SharedPtr(other.ctl_block_)`.
* `sCopyAssign dst src` — `operator=(const SharedPtr&)`: identity check
  first, then `reset()`, then the unconditional
  `other.ctl_block_` dereference.
* `sCopyAssignCross` — the templated `operator=(const SharedPtr<U>&)`:
  same body without the identity check.
* `sMoveCtor src` — `SharedPtr(SharedPtr&& other) :
  SharedPtr(other.ctl_block_) { other.reset(); }`.
* `sMoveAssign dst src` — `operator=(SharedPtr&&)`: identity check,
  `reset()`, then `std::swap(ctl_block_, other.ctl_block_)`.
* `sReset h` — `reset()`.
* `wFromShared h` — `WeakPtr(const SharedPtr<U>& owner) :
  WeakPtr(owner.ctl_block_)`.
* `wCopyAssign dst src` — the templated `WeakPtr::operator=(const
  WeakPtr<U>&)`: `reset()`, then the unconditional source dereference.
* `wReset w` — `WeakPtr::reset()`.
* `lock w` — `lock()`: `return SharedPtr<T>(ctl_block_);`. -/
def step (op : Op) (s : State) : Option State :=
  match op with
  | .sNew =>
      pushShared (some s.blocks.length)
        { s with blocks := s.blocks ++ [CtlBlock.fresh] }
  | .sCopyCtor h =>
      (s.shared[h]?).bind fun p => pushShared p s
  | .sCopyAssign dst src =>
      if dst = src then
        if dst < s.shared.length then some s else none
      else
        (resetSharedAt dst s).bind fun s1 =>
          (s1.shared[src]?).bind fun p =>
            match p with
            | none => none
            | some i => assignSharedAt dst i s1
  | .sCopyAssignCross dst src =>
      (resetSharedAt dst s).bind fun s1 =>
        (s1.shared[src]?).bind fun p =>
          match p with
          | none => none
          | some i => assignSharedAt dst i s1
  | .sMoveCtor src =>
      (s.shared[src]?).bind fun p =>
        (pushShared p s).bind fun s1 => resetSharedAt src s1
  | .sMoveAssign dst src =>
      if dst = src then
        if dst < s.shared.length then some s else none
      else
        (resetSharedAt dst s).bind fun s1 =>
          (s1.shared[src]?).bind fun p =>
            some { s1 with shared := (s1.shared.set dst p).set src none }
  | .sReset h => resetSharedAt h s
  | .wFromShared h =>
      (s.shared[h]?).bind fun p => pushWeak p s
  | .wCopyAssign dst src =>
      (resetWeakAt dst s).bind fun s1 =>
        (s1.weakh[src]?).bind fun p =>
          match p with
          | none => none
          | some i => assignWeakAt dst i s1
  | .wReset w => resetWeakAt w s
  | .lock w =>
      (s.weakh[w]?).bind fun p => pushShared p s

/-- Execute a call sequence from a given state. -/
def runFrom (s : State) : List Op → Option State
  | [] => some s
  | op :: ops => (step op s).bind fun s1 => runFrom s1 ops

/-- Execute a call sequence from the empty program state. -/
def run (ops : List Op) : Option State := runFrom ⟨[], [], []⟩ ops

/-- `SharedPtr::use_count()`: `ctl_block_ == nullptr ? 0 :
ctl_block_->get_use_count()`, read on handle `h` (0 when the handle
index does not exist; a dangling block never occurs in reachable
states). -/
def useCount (s : State) (h : Nat) : Nat :=
  match s.shared[h]? with
  | some (some i) =>
      match s.blocks[i]? with
      | some b => b.get_use_count
      | none => 0
  | _ => 0

/-- `WeakPtr::expired()`: `ctl_block_ == nullptr ||
!ctl_block_->is_valid()`, read on weak handle `w` (`none` when the
handle index does not exist or the block would be a dangling
dereference). -/
def expired (s : State) (w : Nat) : Option Bool :=
  match s.weakh[w]? with
  | none => none
  | some none => some true
  | some (some i) => (s.getBlock i).map fun b => !b.is_valid

/-! ### Counting handles -/

/-- Number of handles in `l` whose stored `ctl_block_` is block `i`. -/
def cnt (i : Nat) : List (Option Nat) → Nat
  | [] => 0
  | p :: l => (if p = some i then 1 else 0) + cnt i l

/-! ### The reachable-state invariant -/

/-- Invariant of reachable program states: every live (not yet freed)
block has its strong count equal to the number of `SharedPtr` handles
referencing it and its weak count equal to the number of `WeakPtr`
handles referencing it; no handle references a freed block; every
stored block index is in range. -/
structure Inv (s : State) : Prop where
  aliveCnt : ∀ (i : Nat) (b : CtlBlock), s.blocks[i]? = some b →
      b.deleteBlockCalls = 0 →
      b.strong = cnt i s.shared ∧ b.weak = cnt i s.weakh
  deadCnt : ∀ (i : Nat) (b : CtlBlock), s.blocks[i]? = some b →
      b.deleteBlockCalls ≠ 0 →
      cnt i s.shared = 0 ∧ cnt i s.weakh = 0
  sharedLt : ∀ (h i : Nat), s.shared[h]? = some (some i) →
      i < s.blocks.length
  weakLt : ∀ (h i : Nat), s.weakh[h]? = some (some i) →
      i < s.blocks.length

/-! ### Construction models: `PtrControlBlock` and `ValueControlBlock`

The factories are modelled with an explicit allocator-call counter so
that the number-of-allocations claims are expressible.  Memory layout
is abstracted: for the value-embedding block, the fact that `data_`
points into the embedded union storage is recorded as a flag set by the
constructor, which runs `set_data(&value)`. -/

/-- The observable fields of `PtrControlBlock<T, Deleter, Alloc>`: the
inherited counts and the stored pointer (`ControlBlockBase::data_`,
set to the constructor argument).  The deleter and the rebound
allocator carry no state observable by the claims. -/
structure PtrBlockM (α : Type) where
  strong : Nat
  weak : Nat
  data : α
deriving Repr, DecidableEq

/-- `PtrControlBlock::make_block(data, deleter, alloc)`: one
`block_alloc_traits::allocate(blk_alloc, 1)` call (counted), then the
block is constructed in place; the base constructor
`ControlBlockBase(ptr)` zero-initialises both counts. -/
def PtrControlBlock.make_block {α : Type} (allocs : Nat) (ptr : α) :
    Nat × PtrBlockM α :=
  (allocs + 1, { strong := 0, weak := 0, data := ptr })

/-- A `SharedPtr<T>` holding its control block by value (sufficient for
the single-handle construction claims; aliasing between handles is
covered by the machine model above). -/
structure SharedPtrM (α : Type) where
  ctl : Option (PtrBlockM α)
deriving Repr, DecidableEq

/-- The private constructor `SharedPtr(detail::ControlBlockBase*
ctl_block)`: stores the pointer; when it is non-null, calls
`add_strong_link()` (`++strong_count_`). -/
def SharedPtrM.fromCtl {α : Type} (b : Option (PtrBlockM α)) :
    SharedPtrM α :=
  match b with
  | none => ⟨none⟩
  | some blk => ⟨some { blk with strong := blk.strong + 1 }⟩

/-- `SharedPtr(T* ptr, Deleter deleter, Alloc alloc)`: delegates to the
private constructor applied to `PtrControlBlock::make_block(ptr,
deleter, alloc)`; the allocator call count is threaded through. -/
def SharedPtrM.fromRaw {α : Type} (allocs : Nat) (ptr : α) :
    Nat × SharedPtrM α :=
  let r := PtrControlBlock.make_block allocs ptr
  (r.1, SharedPtrM.fromCtl (some r.2))

/-- `use_count()`: `ctl_block_ == nullptr ? 0 :
ctl_block_->get_use_count()`. -/
def SharedPtrM.use_count {α : Type} (p : SharedPtrM α) : Nat :=
  match p.ctl with
  | none => 0
  | some b => b.strong

/-- `get()`: `ctl_block_ == nullptr ? nullptr :
ctl_block_->get_data<T>()`; `get_data` returns the stored `data_`. -/
def SharedPtrM.get {α : Type} (p : SharedPtrM α) : Option α :=
  match p.ctl with
  | none => none
  | some b => some b.data

/-- The observable fields of `ValueControlBlock<T, Alloc>`: the
inherited counts, the value constructed from the forwarded arguments
inside the embedded union storage, and whether `data_` points at that
embedded storage (the constructor body runs `set_data(&value)`). -/
structure ValueBlockM (α : Type) where
  strong : Nat
  weak : Nat
  value : α
  dataIsEmbedded : Bool
deriving Repr, DecidableEq

/-- `ValueControlBlock::make_block(alloc, args...)`: one
`block_alloc_traits::allocate(blk_alloc, 1)` call (counted), then
`construct` builds the block in place: the member initialiser
constructs `T` from the forwarded arguments inside the embedded storage
(no further allocator call) and the constructor body sets `data_` to
the address of that storage.  The value construction is modelled by
applying the constructor function `mk` to the argument tuple. -/
def ValueControlBlock.make_block {α β : Type} (allocs : Nat)
    (mk : β → α) (args : β) : Nat × ValueBlockM α :=
  (allocs + 1,
   { strong := 0, weak := 0, value := mk args, dataIsEmbedded := true })

/-- A `SharedPtr<T>` over a value-embedding control block. -/
structure SharedPtrV (α : Type) where
  ctl : Option (ValueBlockM α)
deriving Repr, DecidableEq

/-- The private `SharedPtr` constructor, for a value-embedding block. -/
def SharedPtrV.fromCtl {α : Type} (b : Option (ValueBlockM α)) :
    SharedPtrV α :=
  match b with
  | none => ⟨none⟩
  | some blk => ⟨some { blk with strong := blk.strong + 1 }⟩

/-- `use_count()` of a value-block handle. -/
def SharedPtrV.use_count {α : Type} (p : SharedPtrV α) : Nat :=
  match p.ctl with
  | none => 0
  | some b => b.strong

/-- `AllocateShared<T>(alloc, args...)`: returns
`SharedPtr<T>(ValueControlBlock<T, Alloc>::make_block(alloc,
args...))`. -/
def AllocateShared {α β : Type} (allocs : Nat) (mk : β → α) (args : β) :
    Nat × SharedPtrV α :=
  let r := ValueControlBlock.make_block allocs mk args
  (r.1, SharedPtrV.fromCtl (some r.2))

/-- `MakeShared<T>(args...)`: `AllocateShared<T>(std::allocator<T>(),
args...)` — the same factory with the default allocator. -/
def MakeShared {α β : Type} (allocs : Nat) (mk : β → α) (args : β) :
    Nat × SharedPtrV α :=
  AllocateShared allocs mk args

/-! ### Theorems -/

theorem cnt_append (i : Nat) (l : List (Option Nat)) (v : Option Nat) :
    cnt i (l ++ [v]) = cnt i l + (if v = some i then 1 else 0) := by
  induction l with
  | nil => simp [cnt]
  | cons p l ih =>
      show cnt i (p :: (l ++ [v]))
        = cnt i (p :: l) + (if v = some i then 1 else 0)
      rw [cnt, cnt, ih]
      omega

theorem cnt_set (i : Nat) (l : List (Option Nat)) (h : Nat) (p v : Option Nat)
    (hp : l[h]? = some p) :
    cnt i (l.set h v) + (if p = some i then 1 else 0)
      = cnt i l + (if v = some i then 1 else 0) := by
  induction l generalizing h with
  | nil => simp at hp
  | cons q l ih =>
      cases h with
      | zero =>
          simp only [List.getElem?_cons_zero, Option.some.injEq] at hp
          subst hp
          simp only [List.set_cons_zero, cnt]
          omega
      | succ h =>
          simp only [List.getElem?_cons_succ] at hp
          simp only [List.set_cons_succ, cnt]
          have := ih h hp
          omega

theorem cnt_pos (i h : Nat) (l : List (Option Nat))
    (hp : l[h]? = some (some i)) : 0 < cnt i l := by
  induction l generalizing h with
  | nil => simp at hp
  | cons q l ih =>
      cases h with
      | zero =>
          simp only [List.getElem?_cons_zero, Option.some.injEq] at hp
          subst hp
          simp [cnt]
      | succ h =>
          simp only [List.getElem?_cons_succ] at hp
          have := ih h hp
          simp only [cnt]
          omega

theorem exists_of_cnt_pos (i : Nat) (l : List (Option Nat))
    (hc : 0 < cnt i l) : ∃ h : Nat, l[h]? = some (some i) := by
  induction l with
  | nil => simp [cnt] at hc
  | cons q l ih =>
      by_cases hq : q = some i
      · exact ⟨0, by simp [hq]⟩
      · simp only [cnt, if_neg hq, Nat.zero_add] at hc
        obtain ⟨h, hh⟩ := ih hc
        exact ⟨h + 1, by simpa using hh⟩

theorem cnt_eq_zero_of_lt (i : Nat) (l : List (Option Nat)) (n : Nat)
    (hlt : ∀ (h j : Nat), l[h]? = some (some j) → j < n) (hn : ¬ i < n) :
    cnt i l = 0 := by
  by_contra hc
  obtain ⟨h, hh⟩ := exists_of_cnt_pos i l (Nat.pos_of_ne_zero hc)
  exact hn (hlt h i hh)

/-! ### Generic list-lookup helpers -/

theorem optGet_append_cases {α : Type} (l : List α) (v w : α) (k : Nat)
    (h : (l ++ [v])[k]? = some w) :
    l[k]? = some w ∨ (k = l.length ∧ w = v) := by
  rw [List.getElem?_append] at h
  by_cases hk : k < l.length
  · rw [if_pos hk] at h
    exact Or.inl h
  · rw [if_neg hk] at h
    right
    cases hm : k - l.length with
    | zero =>
        rw [hm] at h
        simp only [List.getElem?_cons_zero, Option.some.injEq] at h
        exact ⟨by omega, h.symm⟩
    | succ m =>
        rw [hm] at h
        simp at h

theorem optGet_set_cases {α : Type} (l : List α) (n k : Nat) (v w : α)
    (h : (l.set n v)[k]? = some w) :
    l[k]? = some w ∨ (k = n ∧ w = v) := by
  by_cases hk : k = n
  · subst hk
    by_cases hn : k < l.length
    · rw [List.getElem?_set_self hn] at h
      exact Or.inr ⟨rfl, (Option.some.inj h).symm⟩
    · have hnone : (l.set k v)[k]? = none := by
        apply List.getElem?_eq_none
        rw [List.length_set]
        omega
      rw [hnone] at h
      cases h
  · rw [List.getElem?_set_ne (fun hh => hk hh.symm)] at h
    exact Or.inl h

theorem optGet_exists_of_lt {α : Type} (l : List α) (k : Nat)
    (hk : k < l.length) : ∃ v, l[k]? = some v := by
  rw [List.getElem?_eq_getElem hk]
  exact ⟨_, rfl⟩

/-! ### Case analyses of the control-block operations -/

theorem remove_strong_link_eq (b : CtlBlock) :
    b.remove_strong_link =
      if 0 < b.strong then
        if b.strong - 1 = 0 then
          if b.weak = 0 then
            some ⟨b.strong - 1, b.weak, b.deleteDataCalls + 1,
                  b.deleteBlockCalls + 1⟩
          else
            some ⟨b.strong - 1, b.weak, b.deleteDataCalls + 1,
                  b.deleteBlockCalls⟩
        else
          some ⟨b.strong - 1, b.weak, b.deleteDataCalls,
                b.deleteBlockCalls⟩
      else none := by
  obtain ⟨bs, bw, bd, bb⟩ := b
  simp only [CtlBlock.remove_strong_link, CtlBlock.is_valid,
    CtlBlock.get_use_count]
  by_cases hv : 0 < bs <;> simp [hv]

theorem remove_weak_link_eq (b : CtlBlock) :
    b.remove_weak_link =
      if 0 < b.strong ∨ 0 < b.weak then
        if b.strong = 0 ∧ sizetDec b.weak = 0 then
          some ⟨b.strong, sizetDec b.weak, b.deleteDataCalls,
                b.deleteBlockCalls + 1⟩
        else
          some ⟨b.strong, sizetDec b.weak, b.deleteDataCalls,
                b.deleteBlockCalls⟩
      else none := by
  obtain ⟨bs, bw, bd, bb⟩ := b
  simp only [CtlBlock.remove_weak_link, CtlBlock.is_valid,
    CtlBlock.get_use_count]
  by_cases hv : 0 < bs ∨ 0 < bw
  · have hb : (decide (bs > 0) || decide (bw > 0)) = true := by
      simp [decide_eq_true_eq]
      omega
    simp [hb, hv]
  · have hb : (decide (bs > 0) || decide (bw > 0)) = false := by
      simp [decide_eq_true_eq]
      omega
    simp [hb, hv]

theorem remove_strong_cases {b b1 : CtlBlock}
    (h : b.remove_strong_link = some b1) :
    0 < b.strong ∧
    ((1 < b.strong ∧
        b1 = ⟨b.strong - 1, b.weak, b.deleteDataCalls, b.deleteBlockCalls⟩) ∨
     (b.strong = 1 ∧ 0 < b.weak ∧
        b1 = ⟨0, b.weak, b.deleteDataCalls + 1, b.deleteBlockCalls⟩) ∨
     (b.strong = 1 ∧ b.weak = 0 ∧
        b1 = ⟨0, 0, b.deleteDataCalls + 1, b.deleteBlockCalls + 1⟩)) := by
  rw [remove_strong_link_eq] at h
  split at h
  case isFalse hv => cases h
  case isTrue hv =>
  refine ⟨hv, ?_⟩
  split at h
  case isTrue h0 =>
    split at h
    case isTrue hw =>
      right; right
      injection h with h
      subst h
      refine ⟨by omega, hw, ?_⟩
      simp only [CtlBlock.mk.injEq, and_true, true_and]
      try trivial
      try omega
    case isFalse hw =>
      right; left
      injection h with h
      subst h
      refine ⟨by omega, by omega, ?_⟩
      simp only [CtlBlock.mk.injEq, and_true, true_and]
      try trivial
      try omega
  case isFalse h0 =>
    left
    injection h with h
    subst h
    refine ⟨by omega, ?_⟩
    simp only [CtlBlock.mk.injEq, and_true, true_and]
    try trivial
    try omega

theorem remove_weak_cases {b b1 : CtlBlock} (hw : 0 < b.weak)
    (h : b.remove_weak_link = some b1) :
    (¬(b.strong = 0 ∧ b.weak = 1) ∧
       b1 = ⟨b.strong, b.weak - 1, b.deleteDataCalls, b.deleteBlockCalls⟩) ∨
    (b.strong = 0 ∧ b.weak = 1 ∧
       b1 = ⟨0, 0, b.deleteDataCalls, b.deleteBlockCalls + 1⟩) := by
  have hdec : sizetDec b.weak = b.weak - 1 := by
    unfold sizetDec
    rw [if_neg (by omega)]
  rw [remove_weak_link_eq, hdec] at h
  split at h
  case isFalse hv => cases h
  case isTrue hv =>
  split at h
  case isTrue hz =>
    right
    injection h with h
    subst h
    refine ⟨hz.1, by omega, ?_⟩
    simp only [CtlBlock.mk.injEq, and_true, true_and]
    try trivial
    try omega
  case isFalse hz =>
    left
    injection h with h
    subst h
    refine ⟨?_, ?_⟩
    · intro hcontra
      exact hz ⟨hcontra.1, by omega⟩
    · simp only [CtlBlock.mk.injEq, and_true, true_and]
      try trivial
      try omega

theorem remove_strong_isSome {b : CtlBlock} (hpos : 0 < b.strong) :
    ∃ b1, b.remove_strong_link = some b1 := by
  rw [remove_strong_link_eq, if_pos hpos]
  by_cases h0 : b.strong - 1 = 0 <;> by_cases hw : b.weak = 0 <;>
    simp [h0, hw]

theorem remove_weak_isSome {b : CtlBlock} (hpos : 0 < b.weak) :
    ∃ b1, b.remove_weak_link = some b1 := by
  rw [remove_weak_link_eq, if_pos (Or.inr hpos)]
  by_cases hz : b.strong = 0 ∧ sizetDec b.weak = 0 <;> simp [hz]

theorem getBlock_eq_some {s : State} {i : Nat} {b : CtlBlock} :
    s.getBlock i = some b ↔
      s.blocks[i]? = some b ∧ b.deleteBlockCalls = 0 := by
  unfold State.getBlock
  cases hb : s.blocks[i]? with
  | none => simp
  | some c =>
      show (if c.deleteBlockCalls = 0 then some c else none) = some b ↔ _
      by_cases hc : c.deleteBlockCalls = 0
      · rw [if_pos hc]
        constructor
        · intro h
          injection h with h
          subst h
          exact ⟨rfl, hc⟩
        · rintro ⟨h1, _⟩
          injection h1 with h1
          rw [h1]
      · rw [if_neg hc]
        constructor
        · intro h
          cases h
        · rintro ⟨h1, h2⟩
          injection h1 with h1
          subst h1
          exact absurd h2 hc

theorem shared_pointed_alive {s : State} (hs : Inv s) {h i : Nat}
    (hp : s.shared[h]? = some (some i)) :
    ∃ b, s.blocks[i]? = some b ∧ b.deleteBlockCalls = 0 ∧
      b.strong = cnt i s.shared ∧ b.weak = cnt i s.weakh ∧
      0 < b.strong := by
  have hlt := hs.sharedLt h i hp
  obtain ⟨b, hb⟩ := optGet_exists_of_lt s.blocks i hlt
  have hpos := cnt_pos i h s.shared hp
  by_cases hdb : b.deleteBlockCalls = 0
  · obtain ⟨h1, h2⟩ := hs.aliveCnt i b hb hdb
    exact ⟨b, hb, hdb, h1, h2, by omega⟩
  · obtain ⟨h1, _⟩ := hs.deadCnt i b hb hdb
    omega

theorem weak_pointed_alive {s : State} (hs : Inv s) {h i : Nat}
    (hp : s.weakh[h]? = some (some i)) :
    ∃ b, s.blocks[i]? = some b ∧ b.deleteBlockCalls = 0 ∧
      b.strong = cnt i s.shared ∧ b.weak = cnt i s.weakh ∧
      0 < b.weak := by
  have hlt := hs.weakLt h i hp
  obtain ⟨b, hb⟩ := optGet_exists_of_lt s.blocks i hlt
  have hpos := cnt_pos i h s.weakh hp
  by_cases hdb : b.deleteBlockCalls = 0
  · obtain ⟨h1, h2⟩ := hs.aliveCnt i b hb hdb
    exact ⟨b, hb, hdb, h1, h2, by omega⟩
  · obtain ⟨_, h2⟩ := hs.deadCnt i b hb hdb
    omega

/-- Master preservation lemma: replacing a single live block `i` by
`b1` and simultaneously rewriting the handle lists preserves the
invariant, provided the counts referencing any other block are
untouched, the new counts at `i` match `b1`, and all stored indices
remain in range. -/
theorem inv_update {s : State} (hs : Inv s) {i : Nat} {b b1 : CtlBlock}
    (hb : s.blocks[i]? = some b)
    (S1 W1 : List (Option Nat))
    (hcntS : ∀ j : Nat, j ≠ i → cnt j S1 = cnt j s.shared)
    (hcntW : ∀ j : Nat, j ≠ i → cnt j W1 = cnt j s.weakh)
    (hAlive : b1.deleteBlockCalls = 0 →
        b1.strong = cnt i S1 ∧ b1.weak = cnt i W1)
    (hDead : b1.deleteBlockCalls ≠ 0 → cnt i S1 = 0 ∧ cnt i W1 = 0)
    (hS : ∀ (h j : Nat), S1[h]? = some (some j) → j < s.blocks.length)
    (hW : ∀ (h j : Nat), W1[h]? = some (some j) → j < s.blocks.length) :
    Inv ⟨s.blocks.set i b1, S1, W1⟩ := by
  have hilen : i < s.blocks.length := (List.getElem?_eq_some.mp hb).1
  constructor
  · intro j c hc hdbc
    by_cases hji : j = i
    · subst hji
      rw [List.getElem?_set_self hilen] at hc
      injection hc with hc
      subst hc
      exact hAlive hdbc
    · rw [List.getElem?_set_ne (fun hh => hji hh.symm)] at hc
      rw [hcntS j hji, hcntW j hji]
      exact hs.aliveCnt j c hc hdbc
  · intro j c hc hdbc
    by_cases hji : j = i
    · subst hji
      rw [List.getElem?_set_self hilen] at hc
      injection hc with hc
      subst hc
      exact hDead hdbc
    · rw [List.getElem?_set_ne (fun hh => hji hh.symm)] at hc
      rw [hcntS j hji, hcntW j hji]
      exact hs.deadCnt j c hc hdbc
  · intro h j hp
    have := hS h j hp
    simpa [List.length_set] using this
  · intro h j hp
    have := hW h j hp
    simpa [List.length_set] using this

/-! ### Preservation of the invariant by the machine primitives -/

theorem inv_pushShared {s s1 : State} {p : Option Nat} (hs : Inv s)
    (hstep : pushShared p s = some s1) : Inv s1 := by
  cases p with
  | none =>
      injection hstep with hstep
      subst hstep
      refine ⟨?_, ?_, ?_, ?_⟩
      · intro i b hb hdb
        have := hs.aliveCnt i b hb hdb
        simpa [cnt_append] using this
      · intro i b hb hdb
        have := hs.deadCnt i b hb hdb
        simpa [cnt_append] using this
      · intro h i hp
        rcases optGet_append_cases _ _ _ _ hp with hold | ⟨_, hv⟩
        · exact hs.sharedLt h i hold
        · simp at hv
      · exact hs.weakLt
  | some i =>
      unfold pushShared at hstep
      simp only [] at hstep
      cases hgb : s.getBlock i with
      | none =>
          rw [hgb] at hstep
          simp at hstep
      | some b =>
          rw [hgb, Option.map_some'] at hstep
          injection hstep with hstep
          subst hstep
          obtain ⟨hbi, hdb⟩ := getBlock_eq_some.mp hgb
          have hilen : i < s.blocks.length := (List.getElem?_eq_some.mp hbi).1
          refine inv_update hs hbi _ _ ?_ ?_ ?_ ?_ ?_ ?_
          · intro j hji
            simp [cnt_append, Ne.symm hji]
          · intro j hji
            rfl
          · intro _
            obtain ⟨h1, h2⟩ := hs.aliveCnt i b hbi hdb
            constructor
            · show b.strong + 1 = _
              rw [cnt_append, if_pos rfl]
              omega
            · exact h2
          · intro hdbc
            exact absurd hdb hdbc
          · intro h j hp
            rcases optGet_append_cases _ _ _ _ hp with hold | ⟨_, hv⟩
            · exact hs.sharedLt h j hold
            · injection hv with hv
              subst hv
              exact hilen
          · exact hs.weakLt

theorem inv_pushWeak {s s1 : State} {p : Option Nat} (hs : Inv s)
    (hstep : pushWeak p s = some s1) : Inv s1 := by
  cases p with
  | none =>
      injection hstep with hstep
      subst hstep
      refine ⟨?_, ?_, ?_, ?_⟩
      · intro i b hb hdb
        have := hs.aliveCnt i b hb hdb
        simpa [cnt_append] using this
      · intro i b hb hdb
        have := hs.deadCnt i b hb hdb
        simpa [cnt_append] using this
      · exact hs.sharedLt
      · intro h i hp
        rcases optGet_append_cases _ _ _ _ hp with hold | ⟨_, hv⟩
        · exact hs.weakLt h i hold
        · simp at hv
  | some i =>
      unfold pushWeak at hstep
      simp only [] at hstep
      cases hgb : s.getBlock i with
      | none =>
          rw [hgb] at hstep
          simp at hstep
      | some b =>
          rw [hgb, Option.map_some'] at hstep
          injection hstep with hstep
          subst hstep
          obtain ⟨hbi, hdb⟩ := getBlock_eq_some.mp hgb
          have hilen : i < s.blocks.length := (List.getElem?_eq_some.mp hbi).1
          refine inv_update hs hbi _ _ ?_ ?_ ?_ ?_ ?_ ?_
          · intro j hji
            rfl
          · intro j hji
            simp [cnt_append, Ne.symm hji]
          · intro _
            obtain ⟨h1, h2⟩ := hs.aliveCnt i b hbi hdb
            constructor
            · exact h1
            · show b.weak + 1 = _
              rw [cnt_append, if_pos rfl]
              omega
          · intro hdbc
            exact absurd hdb hdbc
          · exact hs.sharedLt
          · intro h j hp
            rcases optGet_append_cases _ _ _ _ hp with hold | ⟨_, hv⟩
            · exact hs.weakLt h j hold
            · injection hv with hv
              subst hv
              exact hilen

theorem inv_resetShared {s s1 : State} {h : Nat} (hs : Inv s)
    (hstep : resetSharedAt h s = some s1) : Inv s1 := by
  unfold resetSharedAt at hstep
  cases hp : s.shared[h]? with
  | none =>
      rw [hp] at hstep
      cases hstep
  | some p =>
      rw [hp] at hstep
      cases p with
      | none =>
          injection hstep with hstep
          subst hstep
          exact hs
      | some i =>
          obtain ⟨b, hbi, hdb, hstrongEq, hweakEq, hpos⟩ :=
            shared_pointed_alive hs hp
          have hgb : s.getBlock i = some b := getBlock_eq_some.mpr ⟨hbi, hdb⟩
          simp only [] at hstep
          rw [hgb, Option.some_bind] at hstep
          cases hrm : b.remove_strong_link with
          | none =>
              rw [hrm] at hstep
              simp at hstep
          | some b1 =>
              rw [hrm, Option.map_some'] at hstep
              injection hstep with hstep
              subst hstep
              have hcelim := cnt_set i s.shared h (some i) none hp
              rw [if_pos rfl, if_neg (by simp)] at hcelim
              obtain ⟨hpos2, hcase⟩ := remove_strong_cases hrm
              rcases hcase with ⟨hgt, hb1⟩ | ⟨he1, hwpos, hb1⟩ | ⟨he1, hw0, hb1⟩
              all_goals subst hb1
              all_goals refine inv_update hs hbi _ _ ?_ ?_ ?_ ?_ ?_ ?_
              · intro j hji
                have hcs := cnt_set j s.shared h (some i) none hp
                simpa [Ne.symm hji] using hcs
              · intro j hji
                rfl
              · intro _
                refine ⟨?_, hweakEq⟩
                show b.strong - 1 = _
                omega
              · intro hdbc
                exact absurd hdb hdbc
              · intro k j hq
                rcases optGet_set_cases _ _ _ _ _ hq with hold | ⟨_, hv⟩
                · exact hs.sharedLt k j hold
                · simp at hv
              · exact hs.weakLt
              · intro j hji
                have hcs := cnt_set j s.shared h (some i) none hp
                simpa [Ne.symm hji] using hcs
              · intro j hji
                rfl
              · intro _
                refine ⟨?_, hweakEq⟩
                show (0 : Nat) = _
                omega
              · intro hdbc
                exact absurd hdb hdbc
              · intro k j hq
                rcases optGet_set_cases _ _ _ _ _ hq with hold | ⟨_, hv⟩
                · exact hs.sharedLt k j hold
                · simp at hv
              · exact hs.weakLt
              · intro j hji
                have hcs := cnt_set j s.shared h (some i) none hp
                simpa [Ne.symm hji] using hcs
              · intro j hji
                rfl
              · intro hdbc
                simp at hdbc
              · intro _
                constructor
                · omega
                · rw [← hweakEq]
                  exact hw0
              · intro k j hq
                rcases optGet_set_cases _ _ _ _ _ hq with hold | ⟨_, hv⟩
                · exact hs.sharedLt k j hold
                · simp at hv
              · exact hs.weakLt

theorem inv_resetWeak {s s1 : State} {w : Nat} (hs : Inv s)
    (hstep : resetWeakAt w s = some s1) : Inv s1 := by
  unfold resetWeakAt at hstep
  cases hp : s.weakh[w]? with
  | none =>
      rw [hp] at hstep
      cases hstep
  | some p =>
      rw [hp] at hstep
      cases p with
      | none =>
          injection hstep with hstep
          subst hstep
          exact hs
      | some i =>
          obtain ⟨b, hbi, hdb, hstrongEq, hweakEq, hpos⟩ :=
            weak_pointed_alive hs hp
          have hgb : s.getBlock i = some b := getBlock_eq_some.mpr ⟨hbi, hdb⟩
          simp only [] at hstep
          rw [hgb, Option.some_bind] at hstep
          cases hrm : b.remove_weak_link with
          | none =>
              rw [hrm] at hstep
              simp at hstep
          | some b1 =>
              rw [hrm, Option.map_some'] at hstep
              injection hstep with hstep
              subst hstep
              have hcelim := cnt_set i s.weakh w (some i) none hp
              rw [if_pos rfl, if_neg (by simp)] at hcelim
              rcases remove_weak_cases hpos hrm with ⟨hno, hb1⟩ | ⟨he1, hw1, hb1⟩
              all_goals subst hb1
              all_goals refine inv_update hs hbi _ _ ?_ ?_ ?_ ?_ ?_ ?_
              · intro j hji
                rfl
              · intro j hji
                have hcs := cnt_set j s.weakh w (some i) none hp
                simpa [Ne.symm hji] using hcs
              · intro _
                refine ⟨hstrongEq, ?_⟩
                show b.weak - 1 = _
                omega
              · intro hdbc
                exact absurd hdb hdbc
              · exact hs.sharedLt
              · intro k j hq
                rcases optGet_set_cases _ _ _ _ _ hq with hold | ⟨_, hv⟩
                · exact hs.weakLt k j hold
                · simp at hv
              · intro j hji
                rfl
              · intro j hji
                have hcs := cnt_set j s.weakh w (some i) none hp
                simpa [Ne.symm hji] using hcs
              · intro hdbc
                simp at hdbc
              · intro _
                constructor
                · rw [← hstrongEq]
                  exact he1
                · omega
              · exact hs.sharedLt
              · intro k j hq
                rcases optGet_set_cases _ _ _ _ _ hq with hold | ⟨_, hv⟩
                · exact hs.weakLt k j hold
                · simp at hv

theorem inv_assignShared {s s1 : State} {h i : Nat} (hs : Inv s)
    (hslot : s.shared[h]? = some none)
    (hstep : assignSharedAt h i s = some s1) : Inv s1 := by
  unfold assignSharedAt at hstep
  cases hgb : s.getBlock i with
  | none =>
      rw [hgb] at hstep
      simp at hstep
  | some b =>
      rw [hgb, Option.map_some'] at hstep
      injection hstep with hstep
      subst hstep
      obtain ⟨hbi, hdb⟩ := getBlock_eq_some.mp hgb
      have hilen : i < s.blocks.length := (List.getElem?_eq_some.mp hbi).1
      refine inv_update hs hbi _ _ ?_ ?_ ?_ ?_ ?_ ?_
      · intro j hji
        have hcs := cnt_set j s.shared h none (some i) hslot
        simpa [Ne.symm hji] using hcs
      · intro j hji
        rfl
      · intro _
        obtain ⟨h1, h2⟩ := hs.aliveCnt i b hbi hdb
        have hcs := cnt_set i s.shared h none (some i) hslot
        rw [if_pos rfl, if_neg (by simp)] at hcs
        refine ⟨?_, h2⟩
        show b.strong + 1 = _
        omega
      · intro hdbc
        exact absurd hdb hdbc
      · intro k j hq
        rcases optGet_set_cases _ _ _ _ _ hq with hold | ⟨_, hv⟩
        · exact hs.sharedLt k j hold
        · injection hv with hv
          subst hv
          exact hilen
      · exact hs.weakLt

theorem inv_assignWeak {s s1 : State} {h i : Nat} (hs : Inv s)
    (hslot : s.weakh[h]? = some none)
    (hstep : assignWeakAt h i s = some s1) : Inv s1 := by
  unfold assignWeakAt at hstep
  cases hgb : s.getBlock i with
  | none =>
      rw [hgb] at hstep
      simp at hstep
  | some b =>
      rw [hgb, Option.map_some'] at hstep
      injection hstep with hstep
      subst hstep
      obtain ⟨hbi, hdb⟩ := getBlock_eq_some.mp hgb
      have hilen : i < s.blocks.length := (List.getElem?_eq_some.mp hbi).1
      refine inv_update hs hbi _ _ ?_ ?_ ?_ ?_ ?_ ?_
      · intro j hji
        rfl
      · intro j hji
        have hcs := cnt_set j s.weakh h none (some i) hslot
        simpa [Ne.symm hji] using hcs
      · intro _
        obtain ⟨h1, h2⟩ := hs.aliveCnt i b hbi hdb
        have hcs := cnt_set i s.weakh h none (some i) hslot
        rw [if_pos rfl, if_neg (by simp)] at hcs
        refine ⟨h1, ?_⟩
        show b.weak + 1 = _
        omega
      · intro hdbc
        exact absurd hdb hdbc
      · exact hs.sharedLt
      · intro k j hq
        rcases optGet_set_cases _ _ _ _ _ hq with hold | ⟨_, hv⟩
        · exact hs.weakLt k j hold
        · injection hv with hv
          subst hv
          exact hilen

theorem inv_appendBlock {s : State} (hs : Inv s) :
    Inv ⟨s.blocks ++ [CtlBlock.fresh], s.shared, s.weakh⟩ := by
  refine ⟨?_, ?_, ?_, ?_⟩
  · intro i b hb hdb
    rcases optGet_append_cases _ _ _ _ hb with hold | ⟨hi, hv⟩
    · exact hs.aliveCnt i b hold hdb
    · subst hv
      subst hi
      constructor
      · show (0 : Nat) = _
        rw [cnt_eq_zero_of_lt _ s.shared s.blocks.length hs.sharedLt
          (by omega)]
      · show (0 : Nat) = _
        rw [cnt_eq_zero_of_lt _ s.weakh s.blocks.length hs.weakLt
          (by omega)]
  · intro i b hb hdb
    rcases optGet_append_cases _ _ _ _ hb with hold | ⟨hi, hv⟩
    · exact hs.deadCnt i b hold hdb
    · subst hv
      simp [CtlBlock.fresh] at hdb
  · intro h i hp
    have := hs.sharedLt h i hp
    simp only [List.length_append, List.length_cons, List.length_nil]
    omega
  · intro h i hp
    have := hs.weakLt h i hp
    simp only [List.length_append, List.length_cons, List.length_nil]
    omega

theorem inv_swapShared {s : State} (hs : Inv s) {dst src : Nat}
    {p : Option Nat} (hne : dst ≠ src)
    (hdst : s.shared[dst]? = some none)
    (hsrc : s.shared[src]? = some p) :
    Inv { s with shared := (s.shared.set dst p).set src none } := by
  have hsrc2 : (s.shared.set dst p)[src]? = some p := by
    rw [List.getElem?_set_ne hne]
    exact hsrc
  have hswap : ∀ j : Nat,
      cnt j ((s.shared.set dst p).set src none) = cnt j s.shared := by
    intro j
    have e1 := cnt_set j s.shared dst none p hdst
    have e2 := cnt_set j (s.shared.set dst p) src p none hsrc2
    have hnone : (if (none : Option Nat) = some j then 1 else 0) = 0 := by
      simp
    rw [hnone] at e1 e2
    omega
  refine ⟨?_, ?_, ?_, ?_⟩
  · intro i b hb hdb
    obtain ⟨h1, h2⟩ := hs.aliveCnt i b hb hdb
    rw [hswap i]
    exact ⟨h1, h2⟩
  · intro i b hb hdb
    obtain ⟨h1, h2⟩ := hs.deadCnt i b hb hdb
    rw [hswap i]
    exact ⟨h1, h2⟩
  · intro k j hp
    rcases optGet_set_cases _ _ _ _ _ hp with hcase | ⟨_, hv⟩
    · rcases optGet_set_cases _ _ _ _ _ hcase with hold | ⟨_, hv2⟩
      · exact hs.sharedLt k j hold
      · subst hv2
        exact hs.sharedLt src j hsrc
    · simp at hv
  · exact hs.weakLt

theorem resetShared_slot {s s1 : State} {h : Nat}
    (hstep : resetSharedAt h s = some s1) : s1.shared[h]? = some none := by
  unfold resetSharedAt at hstep
  cases hp : s.shared[h]? with
  | none =>
      rw [hp] at hstep
      cases hstep
  | some p =>
      rw [hp] at hstep
      cases p with
      | none =>
          injection hstep with hstep
          subst hstep
          exact hp
      | some i =>
          simp only [] at hstep
          cases hgb : s.getBlock i with
          | none =>
              rw [hgb] at hstep
              simp at hstep
          | some b =>
              rw [hgb, Option.some_bind] at hstep
              cases hrm : b.remove_strong_link with
              | none =>
                  rw [hrm] at hstep
                  simp at hstep
              | some b1 =>
                  rw [hrm, Option.map_some'] at hstep
                  injection hstep with hstep
                  subst hstep
                  show (s.shared.set h none)[h]? = some none
                  exact List.getElem?_set_self (List.getElem?_eq_some.mp hp).1

theorem resetWeak_slot {s s1 : State} {w : Nat}
    (hstep : resetWeakAt w s = some s1) : s1.weakh[w]? = some none := by
  unfold resetWeakAt at hstep
  cases hp : s.weakh[w]? with
  | none =>
      rw [hp] at hstep
      cases hstep
  | some p =>
      rw [hp] at hstep
      cases p with
      | none =>
          injection hstep with hstep
          subst hstep
          exact hp
      | some i =>
          simp only [] at hstep
          cases hgb : s.getBlock i with
          | none =>
              rw [hgb] at hstep
              simp at hstep
          | some b =>
              rw [hgb, Option.some_bind] at hstep
              cases hrm : b.remove_weak_link with
              | none =>
                  rw [hrm] at hstep
                  simp at hstep
              | some b1 =>
                  rw [hrm, Option.map_some'] at hstep
                  injection hstep with hstep
                  subst hstep
                  show (s.weakh.set w none)[w]? = some none
                  exact List.getElem?_set_self (List.getElem?_eq_some.mp hp).1

/-- Every single API call preserves the invariant. -/
theorem step_inv {s s1 : State} (hs : Inv s) {op : Op}
    (hstep : step op s = some s1) : Inv s1 := by
  cases op with
  | sNew =>
      unfold step at hstep
      simp only [] at hstep
      exact inv_pushShared (inv_appendBlock hs) hstep
  | sCopyCtor h =>
      unfold step at hstep
      simp only [] at hstep
      rcases Option.bind_eq_some.mp hstep with ⟨p, hp, hpush⟩
      exact inv_pushShared hs hpush
  | sCopyAssign dst src =>
      unfold step at hstep
      simp only [] at hstep
      by_cases hds : dst = src
      · rw [if_pos hds] at hstep
        split at hstep
        · injection hstep with hstep
          subst hstep
          exact hs
        · cases hstep
      · rw [if_neg hds] at hstep
        rcases Option.bind_eq_some.mp hstep with ⟨s2, hreset, hrest⟩
        rcases Option.bind_eq_some.mp hrest with ⟨p, hp, hassign⟩
        cases p with
        | none =>
            simp only [] at hassign
            cases hassign
        | some i =>
            simp only [] at hassign
            exact inv_assignShared (inv_resetShared hs hreset)
              (resetShared_slot hreset) hassign
  | sCopyAssignCross dst src =>
      unfold step at hstep
      simp only [] at hstep
      rcases Option.bind_eq_some.mp hstep with ⟨s2, hreset, hrest⟩
      rcases Option.bind_eq_some.mp hrest with ⟨p, hp, hassign⟩
      cases p with
      | none =>
          simp only [] at hassign
          cases hassign
      | some i =>
          simp only [] at hassign
          exact inv_assignShared (inv_resetShared hs hreset)
            (resetShared_slot hreset) hassign
  | sMoveCtor src =>
      unfold step at hstep
      simp only [] at hstep
      rcases Option.bind_eq_some.mp hstep with ⟨p, hp, hrest⟩
      rcases Option.bind_eq_some.mp hrest with ⟨s2, hpush, hreset⟩
      exact inv_resetShared (inv_pushShared hs hpush) hreset
  | sMoveAssign dst src =>
      unfold step at hstep
      simp only [] at hstep
      by_cases hds : dst = src
      · rw [if_pos hds] at hstep
        split at hstep
        · injection hstep with hstep
          subst hstep
          exact hs
        · cases hstep
      · rw [if_neg hds] at hstep
        rcases Option.bind_eq_some.mp hstep with ⟨s2, hreset, hrest⟩
        rcases Option.bind_eq_some.mp hrest with ⟨p, hp, hsw⟩
        injection hsw with hsw
        subst hsw
        exact inv_swapShared (inv_resetShared hs hreset) hds
          (resetShared_slot hreset) hp
  | sReset h =>
      unfold step at hstep
      simp only [] at hstep
      exact inv_resetShared hs hstep
  | wFromShared h =>
      unfold step at hstep
      simp only [] at hstep
      rcases Option.bind_eq_some.mp hstep with ⟨p, hp, hpush⟩
      exact inv_pushWeak hs hpush
  | wCopyAssign dst src =>
      unfold step at hstep
      simp only [] at hstep
      rcases Option.bind_eq_some.mp hstep with ⟨s2, hreset, hrest⟩
      rcases Option.bind_eq_some.mp hrest with ⟨p, hp, hassign⟩
      cases p with
      | none =>
          simp only [] at hassign
          cases hassign
      | some i =>
          simp only [] at hassign
          exact inv_assignWeak (inv_resetWeak hs hreset)
            (resetWeak_slot hreset) hassign
  | wReset w =>
      unfold step at hstep
      simp only [] at hstep
      exact inv_resetWeak hs hstep
  | lock w =>
      unfold step at hstep
      simp only [] at hstep
      rcases Option.bind_eq_some.mp hstep with ⟨p, hp, hpush⟩
      exact inv_pushShared hs hpush

theorem inv_init : Inv ⟨[], [], []⟩ := by
  refine ⟨?_, ?_, ?_, ?_⟩
  · intro i b hb hdb
    simp at hb
  · intro i b hb hdb
    simp at hb
  · intro h i hp
    simp at hp
  · intro h i hp
    simp at hp

theorem runFrom_inv {s : State} (hs : Inv s) (ops : List Op) {s1 : State}
    (hrun : runFrom s ops = some s1) : Inv s1 := by
  induction ops generalizing s with
  | nil =>
      simp only [runFrom] at hrun
      injection hrun with hrun
      subst hrun
      exact hs
  | cons op ops ih =>
      simp only [runFrom] at hrun
      rcases Option.bind_eq_some.mp hrun with ⟨s2, hstep, hrest⟩
      exact ih (step_inv hs hstep) hrest

/-- Every state reachable by a sequence of API calls satisfies the
counting invariant. -/
theorem run_inv {ops : List Op} {s1 : State} (hrun : run ops = some s1) :
    Inv s1 :=
  runFrom_inv inv_init ops hrun

/-! ### The claims -/

/-- Claim C1 (code bug, witnessed at a concrete failing input): the
claim requires `lock()` on an expired `WeakPtr` to return an empty
`SharedPtr` and leave the strong count unchanged.  In the code,
`lock()` is `return SharedPtr<T>(ctl_block_);`, whose private
constructor unconditionally increments the strong count.  After
`SharedPtr p(new int); WeakPtr w = p; p.reset();` the weak handle is
expired (block has strong count 0, weak count 1, value destroyed), yet
`w.lock()` yields a handle referencing the block with the strong count
resurrected from 0 to 1 and `use_count() == 1`. -/
theorem c1_lock_on_expired_weak_resurrects :
    run [.sNew, .wFromShared 0, .sReset 0]
      = some ⟨[⟨0, 1, 1, 0⟩], [none], [some 0]⟩ ∧
    expired ⟨[⟨0, 1, 1, 0⟩], [none], [some 0]⟩ 0 = some true ∧
    step (.lock 0) ⟨[⟨0, 1, 1, 0⟩], [none], [some 0]⟩
      = some ⟨[⟨1, 1, 1, 0⟩], [none, some 0], [some 0]⟩ ∧
    useCount ⟨[⟨1, 1, 1, 0⟩], [none, some 0], [some 0]⟩ 1 = 1 := by
  refine ⟨?_, ?_, ?_, ?_⟩ <;> decide

/-- Claim C3 (code bug, witnessed at a concrete failing input): the
claim requires `delete_data` to be called exactly once per block.  In
the execution `SharedPtr p(new int); WeakPtr w = p; p.reset();
SharedPtr q = w.lock(); q.reset();` the final state records
`deleteDataCalls = 2` on the block: the resurrection path of `lock()`
(claim C1) lets `remove_strong_link` drive the strong count to zero a
second time, destroying the managed value twice. -/
theorem c3_delete_data_called_twice :
    run [.sNew, .wFromShared 0, .sReset 0, .lock 0, .sReset 1]
      = some ⟨[⟨0, 1, 2, 0⟩], [none, none], [some 0]⟩ := by
  decide

/-- Claim C4 (code bug, witnessed at a concrete failing input): the
claim states that `add_strong_link()` asserts `is_valid()` and is a
fatal contract violation on an invalidated block.  In the authoritative
header `add_strong_link()` is the unconditional `++strong_count_;` with
no assertion (the asserting version exists only in the dead
declaration-only header `SharedPtr.hpp`): on a block with strong count
0 whose value has been destroyed (`deleteDataCalls = 1`) it returns
normally and resurrects the strong count to 1.  The incrementing
behaviour under the precondition is the same in both versions. -/
theorem c4_add_strong_link_has_no_assert :
    CtlBlock.is_valid ⟨0, 1, 1, 0⟩ = false ∧
    CtlBlock.add_strong_link ⟨0, 1, 1, 0⟩ = ⟨1, 1, 1, 0⟩ ∧
    CtlBlock.add_strong_link ⟨3, 1, 0, 0⟩ = ⟨4, 1, 0, 0⟩ :=
  ⟨rfl, rfl, rfl⟩

/-- Claim C5 (confirmed): constructing a `SharedPtr` from a raw pointer
performs one block allocation via `PtrControlBlock::make_block` and the
delegating private constructor sets the strong count from 0 to 1:
immediately afterwards `use_count()` is 1 and `get()` returns the given
pointer. -/
theorem c5_construct_from_raw_pointer {α : Type} (allocs : Nat) (ptr : α) :
    (SharedPtrM.fromRaw allocs ptr).1 = allocs + 1 ∧
    (SharedPtrM.fromRaw allocs ptr).2.use_count = 1 ∧
    (SharedPtrM.fromRaw allocs ptr).2.get = some ptr :=
  ⟨rfl, rfl, rfl⟩

/-- Claim C6 (confirmed): the expression `p = std::move(p)` selects the
non-templated `operator=(SharedPtr&&)`, which checks `this == &other`
before any mutation; self-move-assignment is a no-op on every state:
the handle keeps its control block and no strong count changes. -/
theorem c6_self_move_assign_noop (s : State) (h : Nat)
    (hh : h < s.shared.length) :
    step (.sMoveAssign h h) s = some s := by
  unfold step
  simp only []
  rw [if_pos trivial, if_pos hh]

theorem c6_witness :
    step (.sMoveAssign 0 0) ⟨[⟨1, 0, 0, 0⟩], [some 0], []⟩
      = some ⟨[⟨1, 0, 0, 0⟩], [some 0], []⟩ :=
  c6_self_move_assign_noop ⟨[⟨1, 0, 0, 0⟩], [some 0], []⟩ 0 (by decide)

/-- Claim C10 (confirmed): `AllocateShared` and `MakeShared` perform
exactly one allocator allocation for value and bookkeeping combined:
`ValueControlBlock::make_block` allocates a single block-sized unit and
constructs the value inside the embedded storage of that block, setting
the data pointer to that storage; the resulting value is the one
produced by direct construction from the forwarded arguments
(`mk args`, the model of `new T(args...)`), and the handle has strong
count 1. -/
theorem c10_make_shared_single_allocation {α β : Type} (allocs : Nat)
    (mk : β → α) (args : β) :
    (AllocateShared allocs mk args).1 = allocs + 1 ∧
    (AllocateShared allocs mk args).2.ctl = some ⟨1, 0, mk args, true⟩ ∧
    MakeShared allocs mk args = AllocateShared allocs mk args :=
  ⟨rfl, rfl, rfl⟩

/-- Claim C2 (confirmed): after any successful sequence of API calls on
`SharedPtr` and `WeakPtr` handles (in particular any sequence of copy
constructions, copy assignments, move operations and resets on
`SharedPtr` handles), `use_count()` read on a live handle equals the
number of live `SharedPtr` handles referencing the same control block,
and `use_count()` is 0 on an empty handle. -/
theorem c2_use_count_counts_live_handles (ops : List Op) (s : State)
    (hrun : run ops = some s) (k : Nat) :
    (s.shared[k]? = some none → useCount s k = 0) ∧
    (∀ i : Nat, s.shared[k]? = some (some i) →
        useCount s k = cnt i s.shared) := by
  have hs := run_inv hrun
  constructor
  · intro hk
    unfold useCount
    rw [hk]
  · intro i hk
    obtain ⟨b, hbi, hdb, hstrongEq, _, _⟩ := shared_pointed_alive hs hk
    unfold useCount
    rw [hk]
    simp only []
    rw [hbi]
    exact hstrongEq

theorem c2_witness :
    useCount ⟨[⟨2, 0, 0, 0⟩], [some 0, some 0], []⟩ 0
      = cnt 0 [some 0, some 0] :=
  (c2_use_count_counts_live_handles [.sNew, .sCopyCtor 0]
      ⟨[⟨2, 0, 0, 0⟩], [some 0, some 0], []⟩ (by decide) 0).2 0 (by decide)

/-- Claim C7 (confirmed): the same-type and cross-type `SharedPtr`
copy-assignment operators and the `WeakPtr` copy-assignment operator
first reset the destination and then dereference
`other.ctl_block_` unconditionally (`ctl_block_->add_strong_link()` /
`add_weak_link()`), so with an empty (null) source the call is
undefined behaviour (`none` in the model); the copy constructor, by
contrast, delegates to the private constructor, which null-checks the
pointer and accepts an empty source, producing an empty handle. -/
theorem c7_copy_assign_requires_nonempty_source
    (s s1 s2 : State) (dst src w1 w2 k : Nat) (hne : dst ≠ src) :
    (resetSharedAt dst s = some s1 → s1.shared[src]? = some none →
        step (.sCopyAssign dst src) s = none ∧
        step (.sCopyAssignCross dst src) s = none) ∧
    (resetWeakAt w1 s = some s2 → s2.weakh[w2]? = some none →
        step (.wCopyAssign w1 w2) s = none) ∧
    (s.shared[k]? = some none →
        step (.sCopyCtor k) s = some { s with shared := s.shared ++ [none] }) := by
  refine ⟨?_, ?_, ?_⟩
  · intro hreset hslot
    constructor
    · unfold step
      simp only []
      rw [if_neg hne, hreset, Option.some_bind, hslot, Option.some_bind]
    · unfold step
      simp only []
      rw [hreset, Option.some_bind, hslot, Option.some_bind]
  · intro hreset hslot
    unfold step
    simp only []
    rw [hreset, Option.some_bind, hslot, Option.some_bind]
  · intro hk
    unfold step
    simp only []
    rw [hk, Option.some_bind]
    rfl

theorem c7_witness :
    step (.sCopyAssign 0 1) ⟨[], [none, none], [none, none]⟩ = none ∧
    step (.sCopyAssignCross 0 1) ⟨[], [none, none], [none, none]⟩ = none ∧
    step (.wCopyAssign 0 1) ⟨[], [none, none], [none, none]⟩ = none ∧
    step (.sCopyCtor 0) ⟨[], [none, none], [none, none]⟩
      = some ⟨[], [none, none, none], [none, none]⟩ := by
  obtain ⟨h1, h2, h3⟩ := c7_copy_assign_requires_nonempty_source
    ⟨[], [none, none], [none, none]⟩ ⟨[], [none, none], [none, none]⟩
    ⟨[], [none, none], [none, none]⟩ 0 1 0 1 0 (by decide)
  obtain ⟨ha, hb⟩ := h1 (by decide) (by decide)
  exact ⟨ha, hb, h2 (by decide) (by decide), h3 (by decide)⟩

/-- Claim C8 (confirmed): in every reachable state, `expired()` on an
existing `WeakPtr` handle returns true iff the handle is empty (null
`ctl_block_`) or the referenced block has strong count 0. -/
theorem c8_expired_iff_empty_or_zero_strong (ops : List Op) (s : State)
    (hrun : run ops = some s) (w : Nat) (p : Option Nat)
    (hw : s.weakh[w]? = some p) :
    expired s w = some true ↔
      (p = none ∨ ∃ (i : Nat) (b : CtlBlock), p = some i ∧
          s.blocks[i]? = some b ∧ b.strong = 0) := by
  have hs := run_inv hrun
  cases p with
  | none =>
      unfold expired
      rw [hw]
      simp
  | some i =>
      obtain ⟨b, hbi, hdb, _, _, _⟩ := weak_pointed_alive hs hw
      have hgb : s.getBlock i = some b := getBlock_eq_some.mpr ⟨hbi, hdb⟩
      unfold expired
      rw [hw]
      simp only []
      rw [hgb, Option.map_some']
      constructor
      · intro hexp
        injection hexp with hexp
        right
        refine ⟨i, b, rfl, hbi, ?_⟩
        simp [CtlBlock.is_valid, CtlBlock.get_use_count] at hexp
        omega
      · rintro (hcontra | ⟨i2, b2, hpi, hbi2, hstrong⟩)
        · cases hcontra
        · injection hpi with hpi
          subst hpi
          rw [hbi] at hbi2
          injection hbi2 with hbi2
          subst hbi2
          simp [CtlBlock.is_valid, CtlBlock.get_use_count, hstrong]

theorem c8_witness :
    expired ⟨[⟨0, 1, 1, 0⟩], [none], [some 0]⟩ 0 = some true :=
  (c8_expired_iff_empty_or_zero_strong [.sNew, .wFromShared 0, .sReset 0]
      ⟨[⟨0, 1, 1, 0⟩], [none], [some 0]⟩ (by decide) 0 (some 0)
      (by decide)).mpr
    (Or.inr ⟨0, ⟨0, 1, 1, 0⟩, rfl, by decide, rfl⟩)

/-- Claim C9 (confirmed): in every reachable state, `reset()` on an
existing handle succeeds and leaves the handle empty with
`use_count() = 0`; when the handle was non-empty the strong count of
its block is decremented by exactly one (possibly destroying the value
and/or freeing the block); a second `reset()` on the already-reset
handle changes nothing, and `reset()` of an already-empty handle leaves
the whole state unchanged. -/
theorem c9_reset_empties_and_is_idempotent (ops : List Op) (s : State)
    (hrun : run ops = some s) (h : Nat) (hh : h < s.shared.length) :
    ∃ s1, step (.sReset h) s = some s1 ∧
      s1.shared[h]? = some none ∧
      useCount s1 h = 0 ∧
      step (.sReset h) s1 = some s1 ∧
      (s.shared[h]? = some none → s1 = s) ∧
      (∀ (i : Nat) (b : CtlBlock), s.shared[h]? = some (some i) →
          s.blocks[i]? = some b →
          ∃ b1, s1.blocks[i]? = some b1 ∧ b1.strong + 1 = b.strong) := by
  have hs := run_inv hrun
  obtain ⟨p, hp⟩ := optGet_exists_of_lt s.shared h hh
  cases p with
  | none =>
      refine ⟨s, ?_, hp, ?_, ?_, fun _ => rfl, ?_⟩
      · unfold step resetSharedAt
        simp only []
        rw [hp]
      · unfold useCount
        rw [hp]
      · unfold step resetSharedAt
        simp only []
        rw [hp]
      · intro i b hpi hbi
        rw [hp] at hpi
        injection hpi with hpi
        cases hpi
  | some i =>
      obtain ⟨b0, hbi0, hdb0, hstrongEq, hweakEq, hpos⟩ :=
        shared_pointed_alive hs hp
      obtain ⟨b1, hrm⟩ := remove_strong_isSome hpos
      have hilen : i < s.blocks.length := (List.getElem?_eq_some.mp hbi0).1
      have hgb : s.getBlock i = some b0 := getBlock_eq_some.mpr ⟨hbi0, hdb0⟩
      have hslot : (s.shared.set h none)[h]? = some none :=
        List.getElem?_set_self hh
      have hb1s : b1.strong = b0.strong - 1 := by
        rcases remove_strong_cases hrm with
          ⟨_, ⟨hgt, hb1⟩ | ⟨he, hwp, hb1⟩ | ⟨he, hw0, hb1⟩⟩
        · rw [hb1]
        · rw [hb1]
          show (0 : Nat) = b0.strong - 1
          omega
        · rw [hb1]
          show (0 : Nat) = b0.strong - 1
          omega
      refine ⟨⟨s.blocks.set i b1, s.shared.set h none, s.weakh⟩,
        ?_, hslot, ?_, ?_, ?_, ?_⟩
      · unfold step resetSharedAt
        simp only []
        rw [hp]
        simp only []
        rw [hgb, Option.some_bind, hrm, Option.map_some']
      · unfold useCount
        rw [hslot]
      · unfold step resetSharedAt
        simp only []
        rw [hslot]
      · intro hcontra
        rw [hp] at hcontra
        injection hcontra with hcontra
        cases hcontra
      · intro i2 b2 hpi hbi2
        rw [hp] at hpi
        injection hpi with hpi
        injection hpi with hpi
        subst hpi
        rw [hbi0] at hbi2
        injection hbi2 with hbi2
        subst hbi2
        refine ⟨b1, ?_, ?_⟩
        · exact List.getElem?_set_self hilen
        · omega

theorem c9_witness :
    ∃ s1, step (.sReset 0) ⟨[⟨1, 0, 0, 0⟩], [some 0], []⟩ = some s1 ∧
      s1.shared[0]? = some none ∧
      useCount s1 0 = 0 ∧
      step (.sReset 0) s1 = some s1 ∧
      ((State.mk [⟨1, 0, 0, 0⟩] [some 0] []).shared[0]? = some none →
          s1 = ⟨[⟨1, 0, 0, 0⟩], [some 0], []⟩) ∧
      (∀ (i : Nat) (b : CtlBlock),
          (State.mk [⟨1, 0, 0, 0⟩] [some 0] []).shared[0]? = some (some i) →
          (State.mk [⟨1, 0, 0, 0⟩] [some 0] []).blocks[i]? = some b →
          ∃ b1, s1.blocks[i]? = some b1 ∧ b1.strong + 1 = b.strong) :=
  c9_reset_empties_and_is_idempotent [.sNew] ⟨[⟨1, 0, 0, 0⟩], [some 0], []⟩
    (by decide) 0 (by decide)

end MySTL
